import Mathlib

/-!
# PyRCN — verification of the spec against the sources

A shallow embedding of the reservoir-computing estimators of the PyRCN
repository (`pyrcn/extreme_learning_machine/_elm.py`,
`pyrcn/echo_state_network/_feedback_esn.py`,
`pyrcn/echo_state_network/_sequence_to_label_model.py`,
`pyrcn/datasets/_ptdb_tug.py`, `src/pyrcn/postprocessing/_normal_distribution.py`)
over exact rational arithmetic, together with proofs of the spec's claims.

Machine floats are modelled by `ℚ` (exact arithmetic), so "numerically
equivalent within tolerance" becomes exact equality of the modelled values.
Sample matrices are lists of rows; a row of the design matrix paired with its
target row is a `Vec d × Vec t`.
-/

namespace PyRCN

/-- A sample / state / target row: a fixed-width vector of rationals. -/
abbrev Vec (n : ℕ) := Fin n → ℚ

/-- A matrix, as a function of its indices. -/
abbrev Mat (m n : ℕ) := Fin m → Fin n → ℚ

/-- Outer product `sᵀ·s` of one hidden-state row with itself. -/
def outerSS {h : ℕ} (s : Vec h) : Mat h h := fun i j => s i * s j

/-- Outer product `sᵀ·y` of one hidden-state row with one target row. -/
def outerSY {h t : ℕ} (s : Vec h) (y : Vec t) : Mat h t := fun i j => s i * y j

/-- Sufficient statistics of the incremental least-squares regression:
running accumulators for `stateᵀ·state` and `stateᵀ·target`. -/
@[ext]
structure Stats (h t : ℕ) where
  xTx : Mat h h
  xTy : Mat h t

/-- Additive update of the accumulators. -/
def statsAdd {h t : ℕ} (a b : Stats h t) : Stats h t :=
  ⟨a.xTx + b.xTx, a.xTy + b.xTy⟩

/-- Zero accumulators (a freshly constructed regressor). -/
def statsZero {h t : ℕ} : Stats h t := ⟨0, 0⟩

/-- Contribution of a single (state, target) row to the accumulators. -/
def rowStats {h t : ℕ} (p : Vec h × Vec t) : Stats h t :=
  ⟨outerSS p.1, outerSY p.1 p.2⟩

/-- Accumulated sufficient statistics of a chunk of (state, target) rows. -/
def chunkStats {h t : ℕ} (rows : List (Vec h × Vec t)) : Stats h t :=
  rows.foldl (fun acc p => statsAdd acc (rowStats p)) statsZero

theorem statsAdd_assoc {h t : ℕ} (a b c : Stats h t) :
    statsAdd (statsAdd a b) c = statsAdd a (statsAdd b c) := by
  simp [statsAdd, add_assoc]

theorem statsAdd_zero_left {h t : ℕ} (a : Stats h t) : statsAdd statsZero a = a := by
  simp [statsAdd, statsZero]

theorem statsAdd_zero_right {h t : ℕ} (a : Stats h t) : statsAdd a statsZero = a := by
  simp [statsAdd, statsZero]

theorem foldl_statsAdd {h t : ℕ} (rows : List (Vec h × Vec t)) (init : Stats h t) :
    rows.foldl (fun acc p => statsAdd acc (rowStats p)) init
      = statsAdd init (chunkStats rows) := by
  induction rows generalizing init with
  | nil => simp [chunkStats, statsAdd_zero_right]
  | cons p rest ih =>
    simp only [chunkStats, List.foldl_cons] at *
    rw [ih, ih (statsAdd statsZero (rowStats p)), statsAdd_zero_left, ← statsAdd_assoc]

theorem chunkStats_append {h t : ℕ} (a b : List (Vec h × Vec t)) :
    chunkStats (a ++ b) = statsAdd (chunkStats a) (chunkStats b) := by
  simp only [chunkStats, List.foldl_append]
  rw [foldl_statsAdd]
  rfl

/-! ## The incremental linear regression

Modelled from the spec: the class `IncrementalRegression` (module
`pyrcn.linear_model`) is imported by the sources but its module is not among
them.  Per the spec (§3, §4.3), it keeps running sufficient statistics
(`stateᵀ·state`, `stateᵀ·target`) updated additively per chunk, and
materializes the output weights (coefficients and intercept, folded into one
weight matrix here) by a regularized normal-equation solve of the accumulated
statistics only when the inverse is not postponed.  The solver is abstracted
as a function `solve` of the accumulated statistics; `n_inversions` counts
how often the inverse is taken. -/
structure IncRegression (h t : ℕ) where
  stats : Stats h t
  coef : Option (Mat h t)
  n_inversions : ℕ

/-- `IncrementalRegression.__class__()`: a freshly constructed regressor. -/
def freshReg {h t : ℕ} : IncRegression h t := ⟨statsZero, none, 0⟩

/-- Modelled from the spec: `IncrementalRegression.partial_fit(chunk,
postpone_inverse)` updates the running sufficient statistics; when the inverse
is not postponed it also materializes the output weights from the updated
statistics. -/
def incPartialFit {h t : ℕ} (solve : Stats h t → Mat h t) (reg : IncRegression h t)
    (rows : List (Vec h × Vec t)) (postpone : Bool) : IncRegression h t :=
  let st := statsAdd reg.stats (chunkStats rows)
  if postpone then ⟨st, reg.coef, reg.n_inversions⟩
  else ⟨st, some (solve st), reg.n_inversions + 1⟩

/-- Modelled from the spec: `IncrementalRegression.fit` on a fresh regressor is
a partial fit that does not postpone the inverse. -/
def incFit {h t : ℕ} (solve : Stats h t → Mat h t)
    (rows : List (Vec h × Vec t)) : IncRegression h t :=
  incPartialFit solve freshReg rows false

/-- Modelled from the spec: `IncrementalRegression.predict` applies the
materialized output weights to each hidden-state row. -/
def applyWeights {h t : ℕ} (w : Mat h t) (s : Vec h) : Vec t :=
  fun j => Finset.univ.sum fun i => s i * w i j

/-! ## Python-level errors

The exception classes the embedded code can raise. -/
inductive PyErr where
  | valueError
  | typeError
  | notFittedError
  | baseException
  | nameError
  | attributeError
  deriving DecidableEq

/-! ## ELMRegressor (`pyrcn/extreme_learning_machine/_elm.py`)

The estimator state.  The `InputToNode` transformer (module `pyrcn.base`) is
not among the sources; it is modelled from the spec (§4.1): `fit` draws a
seeded random projection, `transform` applies it per sample (so it is
deterministic given the seed and commutes with row slicing), and `transform`
before `fit` raises `NotFittedError`.  Hence `i2nFresh` is the per-sample map
the transformer computes once fitted, and `i2n` is `none` while it is still
unfitted.  The duck-typing checks of `_validate_hyperparameters` and
`partial_fit` (`hasattr`, `is_regressor`) are modelled as boolean fields. -/
structure ELMRegressorState (d h t : ℕ) where
  chunk_size : Option ℤ
  i2nValid : Bool
  regIsRegressor : Bool
  regHasPartialFit : Bool
  i2nFresh : Vec d → Vec h
  i2n : Option (Vec d → Vec h)
  reg : IncRegression h t

/-- `chunk_size is not None and chunk_size < 0` (the source also tests
`isinstance(chunk_size, int)`, which always holds for our `ℤ`-valued model). -/
def chunkSizeInvalid : Option ℤ → Bool
  | some c => decide (c < 0)
  | none => false

/-- `ELMRegressor._validate_hyperparameters` (the `check_random_state` call is
not modelled; no claim concerns the random state). -/
def validateHyper {d h t : ℕ} (st : ELMRegressorState d h t) : Except PyErr Unit :=
  if !st.i2nValid then .error .typeError
  else if chunkSizeInvalid st.chunk_size then .error .valueError
  else if !st.regIsRegressor then .error .typeError
  else .ok ()

/-- A design-matrix row with its target row. -/
abbrev Row (d t : ℕ) := Vec d × Vec t

/-- Transform one (input, target) row to a (hidden-state, target) row. -/
def mapRow {d h t : ℕ} (f : Vec d → Vec h) (p : Row d t) : Vec h × Vec t :=
  (f p.1, p.2)

/-- `ELMRegressor.partial_fit`.  The `_validate_data` call only checks array
shapes, which the typed rows guarantee.  The `try/except NotFittedError`
around `input_to_node.transform` is the `match` on `st.i2n`: when the
transformer is unfitted, the exception is caught and `fit_transform` is used
on that same chunk. -/
def elmPartialFit {d h t : ℕ} (solve : Stats h t → Mat h t)
    (st : ELMRegressorState d h t) (rows : List (Row d t)) (postpone : Bool) :
    Except PyErr (ELMRegressorState d h t) := do
  if !st.regHasPartialFit then
    throw .baseException
  validateHyper st
  let (f, st1) :=
    match st.i2n with
    | some f => (f, st)
    | none => (st.i2nFresh, { st with i2n := some st.i2nFresh })
  .ok { st1 with reg := incPartialFit solve st1.reg (rows.map (mapRow f)) postpone }

/-- Number of elements of Python's `range(0, n, c)` for `c > 0`. -/
def pyRangeCount (n c : ℕ) : ℕ := (n + c - 1) / c

/-- Python's `list(range(0, n, c))` for a positive step `c`:
the chunk start indices `[0, c, 2c, ...]` below `n`. -/
def rangeStep (n c : ℕ) : List ℕ := (List.range (pyRangeCount n c)).map (· * c)

/-- The chunks `ELMRegressor.fit` slices `X` (and `y`) into: `X[idx:idx+c]`
for every start index but the last, and `X[chunks[-1]:]` for the last. -/
def chunkSlices {α : Type} (c : ℕ) (data : List α) : List (List α) :=
  ((rangeStep data.length c).dropLast.map fun i => (data.drop i).take c)
    ++ [data.drop ((rangeStep data.length c).getLastD 0)]

/-- `chunk_size is None or chunk_size >= X.shape[0]`. -/
def singleShotCond : Option ℤ → ℕ → Bool
  | none, _ => true
  | some c, n => decide ((n : ℤ) ≤ c)

/-- `ELMRegressor.fit`.  The transformer is (re)fitted on `X` and the
regressor is reset to a fresh instance; then either a single-shot fit, or the
chunked loop of `partial_fit` calls postponing the inverse on all chunks but
the last.  A zero chunk size reaches `range(0, n, 0)`, which raises
`ValueError` in Python. -/
def elmFit {d h t : ℕ} (solve : Stats h t → Mat h t)
    (st : ELMRegressorState d h t) (rows : List (Row d t)) :
    Except PyErr (ELMRegressorState d h t) := do
  validateHyper st
  let st := { st with i2n := some st.i2nFresh, reg := freshReg }
  if singleShotCond st.chunk_size rows.length then
    .ok { st with reg := incFit solve (rows.map (mapRow st.i2nFresh)) }
  else
    match st.chunk_size with
    | none => throw .valueError
    | some c =>
      if c < (rows.length : ℤ) then
        if c = 0 then
          throw .valueError
        else do
          let slices := chunkSlices c.toNat rows
          let st1 ← slices.dropLast.foldlM
            (fun s ch => elmPartialFit solve s ch true) st
          elmPartialFit solve st1 (slices.getLastD []) false
      else
        throw .valueError

/-- `ELMRegressor.predict`.  The source's explicit guard
(`input_to_node is None or regressor is None`) never fires on a constructed
instance; the not-fitted condition arises from `transform` (modelled from the
spec §4.1: transform before fit raises `NotFittedError`) or from the
regressor's missing output weights (spec §4.4: predict before fit signals a
not-fitted condition). -/
def elmPredict {d h t : ℕ} (st : ELMRegressorState d h t) (x : List (Vec d)) :
    Except PyErr (List (Vec t)) :=
  match st.i2n with
  | none => .error .notFittedError
  | some f =>
    match st.reg.coef with
    | none => .error .notFittedError
    | some w => .ok ((x.map f).map (applyWeights w))

/-! ## Label binarization (ELMClassifier)

Modelled from the spec: the classifiers "wrap a label binarizer around the
regressor's numeric targets" (§4.4); `sklearn.preprocessing.LabelBinarizer`
is external to the repository.  `fit` collects the distinct class labels of
`y`; `transform` one-hot encodes each label over those classes; and
`inverse_transform` decodes a row of numeric scores to the class with the
maximal score (first such class on ties; the `threshold` argument the source
passes is used only by sklearn's binary code path and is kept for fidelity of
the call). -/
structure LabelBinarizerState where
  classes : List ℤ

/-- `LabelBinarizer().fit(y)`: the distinct labels occurring in `y`. -/
def lbFit (y : List ℤ) : LabelBinarizerState := ⟨y.dedup⟩

/-- One-hot indicator row of the label `lab` over the classes `cs`. -/
def oneHot (cs : List ℤ) (lab : ℤ) : List ℚ :=
  cs.map fun c => if c = lab then 1 else 0

/-- One-hot indicator row as a fixed-width vector. -/
def oneHotV (cs : List ℤ) (lab : ℤ) : Vec cs.length :=
  fun i => if cs.get i = lab then 1 else 0

/-- The (class, score) pair with the maximal score, earlier pairs winning
ties — `classes_[argmax(scores)]`. -/
def argmaxPair : List (ℤ × ℚ) → Option (ℤ × ℚ)
  | [] => none
  | p :: ps =>
    match argmaxPair ps with
    | none => some p
    | some q => if q.2 > p.2 then some q else some p

/-- Decode one row of regressor scores to a class label. -/
def lbInverseRow (cs : List ℤ) (threshold : ℚ) (s : List ℚ) : ℤ :=
  ((argmaxPair (cs.zip s)).getD (0, threshold)).1

/-- Decode one fixed-width row of regressor scores to a class label. -/
def lbInverseRowV {t : ℕ} (cs : List ℤ) (threshold : ℚ) (s : Vec t) : ℤ :=
  lbInverseRow cs threshold (List.ofFn s)

/-- `LabelBinarizer.inverse_transform` on a matrix of scores. -/
def lbInverse {t : ℕ} (enc : LabelBinarizerState) (threshold : ℚ)
    (scores : List (Vec t)) : List ℤ :=
  scores.map (lbInverseRowV enc.classes threshold)

/-- `ELMClassifier.fit`: binarize the class targets with a freshly fitted
`LabelBinarizer`, then delegate to `ELMRegressor.fit` on the numeric
encoding. -/
def elmClassifierFit {d h : ℕ} (y : List ℤ)
    (solve : Stats h (lbFit y).classes.length → Mat h (lbFit y).classes.length)
    (st : ELMRegressorState d h (lbFit y).classes.length) (x : List (Vec d)) :
    Except PyErr (ELMRegressorState d h (lbFit y).classes.length) :=
  elmFit solve st (x.zip (y.map (oneHotV (lbFit y).classes)))

/-- `ELMClassifier.predict`: `self._encoder.inverse_transform(super().predict(X),
threshold=.0)`.  Python resolves the bound method `self._encoder.inverse_transform`
before evaluating its argument, so when the encoder is still `None` (no fit or
partial fit yet) an `AttributeError` is raised before the regressor's predict
runs. -/
def elmClassifierPredict {d h t : ℕ} (enc : Option LabelBinarizerState)
    (st : ELMRegressorState d h t) (x : List (Vec d)) : Except PyErr (List ℤ) :=
  match enc with
  | none => .error .attributeError
  | some e => do
    let scores ← elmPredict st x
    .ok (lbInverse e 0 scores)

/-! ## FeedbackESNRegressor (`pyrcn/echo_state_network/_feedback_esn.py`)

The `FeedbackNodeToNode` transformer (module `pyrcn.base.blocks`) is not among
the sources; it is modelled from the spec (§4.2): a fitted sequential reservoir
transform that, during fit, folds the (scaled/shifted) target signal into the
recurrence, and, in closed loop, produces the predicted output signal
`_y_pred`.  `n2nTeacher` is the fitted transform with teacher forcing
(`transform(states, y=y)`), `n2nPredict` is the closed-loop `_y_pred`
trajectory filled in by `transform(states)`; `n2nFitted` is `False` while the
transformer is unfitted (its `transform` then raises `NotFittedError`). -/
structure FeedbackESNState (d h r t : ℕ) where
  chunk_size : Option ℤ
  i2nValid : Bool
  n2nValid : Bool
  regIsRegressor : Bool
  regHasPartialFit : Bool
  teacher_scaling : ℚ
  teacher_shift : ℚ
  actInv : ℚ → ℚ
  i2nFresh : Vec d → Vec h
  i2n : Option (Vec d → Vec h)
  n2nTeacher : List (Vec h) → List (Vec t) → List (Vec r)
  n2nPredict : List (Vec h) → List (Vec t)
  n2nFitted : Bool
  outputWeights : Option (Mat r t)
  reg : IncRegression r t

/-- `y * teacher_scaling + teacher_shift` followed by the in-place
`ACTIVATIONS_INVERSE[output_activation]`, elementwise on one target row. -/
def scaledTarget {d h r t : ℕ} (st : FeedbackESNState d h r t) (v : Vec t) : Vec t :=
  fun j => st.actInv (v j * st.teacher_scaling + st.teacher_shift)

/-- `(prediction - teacher_shift) / teacher_scaling`, elementwise on one row. -/
def unscaledOutput {d h r t : ℕ} (st : FeedbackESNState d h r t) (v : Vec t) : Vec t :=
  fun j => (v j - st.teacher_shift) / st.teacher_scaling

/-- `FeedbackESNRegressor._validate_hyperparameters`: like the ELM one plus the
`node_to_node` transformer check between the other two type checks. -/
def fbValidateHyper {d h r t : ℕ} (st : FeedbackESNState d h r t) : Except PyErr Unit :=
  if !st.i2nValid then .error .typeError
  else if !st.n2nValid then .error .typeError
  else if chunkSizeInvalid st.chunk_size then .error .valueError
  else if !st.regIsRegressor then .error .typeError
  else .ok ()

/-- `FeedbackESNRegressor.partial_fit`.  Both `try/except NotFittedError`
blocks (around `input_to_node.transform` and `node_to_node.transform`) are the
two lazy-fitting `match`es; the regressor is trained on the scaled, shifted
and inverse-activated target; when the inverse is not postponed, the output
weights (`vstack(coef_.T, intercept_)`, folded into `reg.coef` here) are
installed into the node-to-node transformer. -/
def fbPartialFit {d h r t : ℕ} (solve : Stats r t → Mat r t)
    (st : FeedbackESNState d h r t) (rows : List (Row d t)) (postpone : Bool) :
    Except PyErr (FeedbackESNState d h r t) := do
  if !st.regHasPartialFit then
    throw .baseException
  fbValidateHyper st
  let x := rows.map Prod.fst
  let y := rows.map Prod.snd
  let (f, st1) :=
    match st.i2n with
    | some f => (f, st)
    | none => (st.i2nFresh, { st with i2n := some st.i2nFresh })
  let st2 := if st1.n2nFitted then st1 else { st1 with n2nFitted := true }
  let hls := st.n2nTeacher (x.map f) y
  let reg := incPartialFit solve st.reg (hls.zip (y.map (scaledTarget st))) postpone
  let st3 := { st2 with reg := reg }
  if postpone then
    .ok st3
  else
    .ok { st3 with outputWeights := reg.coef }

/-- `chunk_size is None or chunk_size > X.shape[0]` (strict, unlike the
ELM regressor's `>=`). -/
def fbSingleShotCond : Option ℤ → ℕ → Bool
  | none, _ => true
  | some c, n => decide ((n : ℤ) < c)

/-- `FeedbackESNRegressor.fit`.  The transformers are (re)fitted and the
regressor reset; with `chunk_size` `None` or strictly greater than the sample
count a single-shot fit is done on the teacher-forced reservoir states and the
scaled target.  The chunked branch of the source calls
`ESNFeedbackRegressor.partial_fit` — a name defined nowhere in the module —
so Python raises `NameError` there; `chunk_size` equal to the sample count
falls through to `raise ValueError`. -/
def fbFit {d h r t : ℕ} (solve : Stats r t → Mat r t)
    (st : FeedbackESNState d h r t) (rows : List (Row d t)) :
    Except PyErr (FeedbackESNState d h r t) := do
  fbValidateHyper st
  let stf := { st with i2n := some st.i2nFresh, n2nFitted := true, reg := freshReg }
  let x := rows.map Prod.fst
  let y := rows.map Prod.snd
  if fbSingleShotCond st.chunk_size rows.length then
    let hls := st.n2nTeacher (x.map st.i2nFresh) y
    let reg := incFit solve (hls.zip (y.map (scaledTarget st)))
    .ok { stf with reg := reg, outputWeights := reg.coef }
  else
    match st.chunk_size with
    | none => throw .valueError
    | some c =>
      if c < (rows.length : ℤ) then
        throw .nameError
      else
        throw .valueError

/-- `FeedbackESNRegressor.predict`: transform in closed loop, then return the
inverse teacher mapping of `_y_pred[:-1]`.  As in `elmPredict`, the not-fitted
condition arises from `transform` before fit (spec §4.1). -/
def fbPredict {d h r t : ℕ} (st : FeedbackESNState d h r t) (x : List (Vec d)) :
    Except PyErr (List (Vec t)) :=
  match st.i2n with
  | none => .error .notFittedError
  | some f =>
    .ok ((st.n2nPredict (x.map f)).dropLast.map (unscaledOutput st))

/-! ## SeqToLabelESNClassifier (`pyrcn/echo_state_network/_sequence_to_label_model.py`)

`ESNClassifier.partial_fit` (module `pyrcn.echo_state_network`, not among the
sources) is modelled from the spec: it pushes the chunk through the reservoir
(abstracted as `emb`, the composed input-to-node/node-to-node transform,
including the classifier's own label handling) and updates the incremental
regressor's sufficient statistics, materializing the output weights only when
`postpone_inverse` is false. -/
def esnClfPartialFit {d h t : ℕ} (solve : Stats h t → Mat h t)
    (emb : List (Vec d) → List (Vec h)) (reg : IncRegression h t)
    (x : List (Vec d)) (y : List (Vec t)) (postpone : Bool) : IncRegression h t :=
  incPartialFit solve reg ((emb x).zip y) postpone

/-- One labelled sequence: its sample rows and its single label row
(`np.repeat(y_train, X_train.shape[0])` repeats the label per sample). -/
abbrev LabelledSeq (d t : ℕ) := List (Vec d) × Vec t

/-- `SeqToLabelESNClassifier.partial_fit`: iterates over the sequences,
forwarding `postpone_inverse=True` for every one of them — the caller-supplied
`postpone` argument is never used. -/
def seqToLabelPartialFit {d h t : ℕ} (solve : Stats h t → Mat h t)
    (emb : List (Vec d) → List (Vec h)) (reg : IncRegression h t)
    (data : List (LabelledSeq d t)) (postpone : Bool) : IncRegression h t :=
  data.foldl
    (fun r sq => esnClfPartialFit solve emb r sq.1 (List.replicate sq.1.length sq.2) true)
    reg

/-- `SeqToLabelESNClassifier.fit`: all sequences but the last with
`postpone_inverse=True`, then the last one with `postpone_inverse=False`.
On an empty dataset `np.concatenate(y)` (and `X[-1]`) raises `ValueError`;
the binarizer/classes bookkeeping is otherwise absorbed into `emb`. -/
def seqToLabelFit {d h t : ℕ} (solve : Stats h t → Mat h t)
    (emb : List (Vec d) → List (Vec h)) (reg : IncRegression h t)
    (data : List (LabelledSeq d t)) : Except PyErr (IncRegression h t) :=
  match data.getLast? with
  | none => .error .valueError
  | some lastSq =>
    let init := data.dropLast.foldl
      (fun r sq => esnClfPartialFit solve emb r sq.1 (List.replicate sq.1.length sq.2) true)
      reg
    .ok (esnClfPartialFit solve emb init lastSq.1
      (List.replicate lastSq.1.length lastSq.2) false)

/-! ## NormalDistribution (`src/pyrcn/postprocessing/_normal_distribution.py`) -/

/-- Modelled from scipy (external): `scipy.stats.norm.rvs(loc, scale, size)`
draws `size` normal variates; the underlying random stream is abstracted as
`noise`. -/
def normRvs (loc scale : ℚ) (size : ℕ) (noise : ℕ → ℚ) : List ℚ :=
  (List.range size).map fun i => loc + scale * noise i

/-- The state of a `NormalDistribution` transformer: the `size` given at
construction and the `_mean`/`_std` stored at fit (both `0` initially). -/
structure NormalDistributionState where
  mean : ℚ
  std : ℚ
  size : ℕ

/-- `NormalDistribution.__init__(size)`. -/
def ndInit (size : ℕ) : NormalDistributionState := ⟨0, 0, size⟩

/-- `NormalDistribution.fit`: stores `scipy.stats.norm.fit(X)`.  scipy's MLE
location/scale estimator is external and involves a real square root, so it is
abstracted as the argument `est`. -/
def ndFit (est : List (List ℚ) → ℚ × ℚ) (nd : NormalDistributionState)
    (x : List (List ℚ)) : NormalDistributionState :=
  { nd with mean := (est x).1, std := (est x).2 }

/-- `NormalDistribution.transform`: returns
`rvs(loc=self._mean, scale=self._std, size=self._size)` — the argument `X`
does not occur in the body. -/
def ndTransform (nd : NormalDistributionState) (noise : ℕ → ℚ)
    (x : List (List ℚ)) : List ℚ :=
  normRvs nd.mean nd.std nd.size noise

/-! ## fetch_ptdb_tug_dataset (`pyrcn/datasets/_ptdb_tug.py`) -/

/-- `os.path.splitext`: split a file name at its last dot (base, extension
including the dot); a name without a dot has an empty extension. -/
def splitExt (name : String) : String × String :=
  let rev := name.toList.reverse
  if '.' ∈ rev then
    (String.mk ((rev.dropWhile (· ≠ '.')).drop 1).reverse,
     String.mk ('.' :: (rev.takeWhile (· ≠ '.')).reverse))
  else
    (name, "")

/-- Modelled from scikit-learn (external):
`sklearn.datasets._base._pkl_filepath(data_home, name)` inserts the suffix
`"_py3"` before the extension of `name` ("Return filename for Python 3
pickles") and joins the result onto `data_home`. -/
def pklFilepath (dataHome name : String) : String :=
  let (base, ext) := splitExt name
  dataHome ++ "/" ++ base ++ "_py3" ++ ext

/-- What one call of `fetch_ptdb_tug_dataset` did: which cache path it used,
and whether it invoked the preprocessor, walked the `data_origin` tree,
loaded the cached blob, or dumped a fresh one. -/
structure FetchTrace where
  path : String
  preprocessorInvoked : Bool
  walkedOrigin : Bool
  loadedFromCache : Bool
  dumpedCache : Bool
  deriving DecidableEq

/-- `fetch_ptdb_tug_dataset`: if the cache file is missing or
`force_preprocessing` is set, walk `data_origin`, preprocess every file and
dump the compressed blob; otherwise load the four arrays from the cache.
(The subsequent shape normalization touches neither the preprocessor nor
`data_origin`.) -/
def fetchPtdbTug (dataHome : String) (cacheExists forcePreprocessing : Bool) :
    FetchTrace :=
  let filepath := pklFilepath dataHome "ptdb_tug.pkz"
  if !cacheExists || forcePreprocessing then
    ⟨filepath, true, true, false, true⟩
  else
    ⟨filepath, false, false, true, false⟩

/-! ## Chunk-slicing lemmas -/

theorem pyRangeCount_eq_one {n c : ℕ} (hn : 0 < n) (hc : n ≤ c) :
    pyRangeCount n c = 1 := by
  unfold pyRangeCount
  apply Nat.div_eq_of_lt_le <;> omega

theorem pyRangeCount_succ {n c : ℕ} (hc : 0 < c) (h : c < n) :
    pyRangeCount n c = pyRangeCount (n - c) c + 1 := by
  unfold pyRangeCount
  have h1 : n + c - 1 = (n - c + c - 1) + c := by omega
  rw [h1, Nat.add_div_right _ hc]

theorem pyRangeCount_zero_left {c : ℕ} : pyRangeCount 0 c = 0 := by
  unfold pyRangeCount
  rcases c with _ | c
  · rfl
  · exact Nat.div_eq_of_lt (by omega)

theorem rangeStep_succ {n c : ℕ} (hc : 0 < c) (h : c < n) :
    rangeStep n c = 0 :: (rangeStep (n - c) c).map (· + c) := by
  unfold rangeStep
  rw [pyRangeCount_succ hc h, List.range_succ_eq_map]
  simp only [List.map_cons, List.map_map, Nat.zero_mul]
  congr 1
  refine List.map_congr_left fun i _ => ?_
  simp [Function.comp, Nat.succ_mul]

theorem rangeStep_ne_nil {n c : ℕ} (hn : 0 < n) (hc : 0 < c) :
    rangeStep n c ≠ [] := by
  unfold rangeStep
  simp only [ne_eq, List.map_eq_nil_iff, List.range_eq_nil]
  unfold pyRangeCount
  intro h0
  rw [Nat.div_eq_zero_iff hc] at h0
  omega

theorem getLastD_map_of_ne_nil {α β : Type} (f : α → β) :
    ∀ (l : List α), l ≠ [] → ∀ (d : β) (d' : α),
      (l.map f).getLastD d = f (l.getLastD d')
  | [], h, _, _ => absurd rfl h
  | [_], _, _, _ => by simp
  | a :: b :: l, _, d, d' => by
    rw [List.map_cons, List.getLastD_cons, List.getLastD_cons]
    exact getLastD_map_of_ne_nil f (b :: l) (by simp) (f a) a

theorem chunkSlices_of_le {α : Type} {c : ℕ} {data : List α}
    (h : data.length ≤ c) : chunkSlices c data = [data] := by
  rcases data with _ | ⟨a, as⟩
  · simp [chunkSlices, rangeStep, pyRangeCount_zero_left]
  · have hn : 0 < (a :: as).length := by simp
    have h1 : rangeStep (a :: as).length c = [0] := by
      unfold rangeStep
      rw [pyRangeCount_eq_one hn h]
      simp [List.range_succ]
    unfold chunkSlices
    rw [h1]
    simp

theorem chunkSlices_cons {α : Type} {c : ℕ} {data : List α}
    (hc : 0 < c) (h : c < data.length) :
    chunkSlices c data = data.take c :: chunkSlices c (data.drop c) := by
  have hne : rangeStep (data.length - c) c ≠ [] :=
    rangeStep_ne_nil (by omega) hc
  have hmapne : (rangeStep (data.length - c) c).map (· + c) ≠ [] := by
    simpa using hne
  unfold chunkSlices
  rw [rangeStep_succ hc h, List.dropLast_cons_of_ne_nil hmapne,
    ← List.map_dropLast, List.getLastD_cons,
    getLastD_map_of_ne_nil _ _ (by simpa using hne) 0 0, List.length_drop]
  simp only [List.map_cons, List.map_map, List.drop_zero, List.cons_append,
    List.drop_drop, Function.comp]
  congr 1
  congr 1
  · refine List.map_congr_left fun i _ => ?_
    simp only [Function.comp_apply]
    rw [Nat.add_comm i c]
  · rw [Nat.add_comm _ c]

theorem chunkSlices_flatten {α : Type} (c : ℕ) (hc : 0 < c) (data : List α) :
    (chunkSlices c data).flatten = data := by
  by_cases h : data.length ≤ c
  · rw [chunkSlices_of_le h]
    simp
  · push_neg at h
    rw [chunkSlices_cons hc h]
    rw [List.flatten_cons, chunkSlices_flatten c hc (data.drop c)]
    exact List.take_append_drop c data
termination_by data.length
decreasing_by simp only [List.length_drop]; omega

theorem chunkSlices_ne_nil {α : Type} (c : ℕ) (data : List α) :
    chunkSlices c data ≠ [] := by
  unfold chunkSlices
  simp

theorem chunkSlices_dropLast_length {α : Type} (c : ℕ) (hc : 0 < c)
    (data : List α) :
    ∀ s ∈ (chunkSlices c data).dropLast, s.length = c := by
  by_cases h : data.length ≤ c
  · rw [chunkSlices_of_le h]
    simp
  · push_neg at h
    rw [chunkSlices_cons hc h,
      List.dropLast_cons_of_ne_nil (chunkSlices_ne_nil c (data.drop c))]
    intro s hs
    rcases List.mem_cons.mp hs with rfl | hs
    · simp only [List.length_take]
      omega
    · exact chunkSlices_dropLast_length c hc (data.drop c) s hs
termination_by data.length
decreasing_by simp only [List.length_drop]; omega

theorem flatten_dropLast_getLastD {α : Type} :
    ∀ (l : List (List α)) (d : List α), l ≠ [] →
      l.dropLast.flatten ++ l.getLastD d = l.flatten
  | [], _, h => absurd rfl h
  | [_], _, _ => by simp
  | a :: b :: l, d, _ => by
    rw [List.dropLast_cons_of_ne_nil (by simp : (b :: l) ≠ []),
      List.flatten_cons, List.flatten_cons, List.getLastD_cons,
      List.append_assoc, flatten_dropLast_getLastD (b :: l) a (by simp)]

/-! ## Fold lemmas for the chunked fit -/

theorem ok_bind {ε α β : Type} (a : α) (k : α → Except ε β) :
    (Except.ok a : Except ε α) >>= k = k a := rfl

theorem incPartialFit_true {h t : ℕ} (solve : Stats h t → Mat h t)
    (reg : IncRegression h t) (rows : List (Vec h × Vec t)) :
    incPartialFit solve reg rows true
      = ⟨statsAdd reg.stats (chunkStats rows), reg.coef, reg.n_inversions⟩ := rfl

theorem incPartialFit_false {h t : ℕ} (solve : Stats h t → Mat h t)
    (reg : IncRegression h t) (rows : List (Vec h × Vec t)) :
    incPartialFit solve reg rows false
      = ⟨statsAdd reg.stats (chunkStats rows),
          some (solve (statsAdd reg.stats (chunkStats rows))),
          reg.n_inversions + 1⟩ := rfl

theorem foldl_incPartialFit_true {h t : ℕ} (solve : Stats h t → Mat h t) :
    ∀ (chunks : List (List (Vec h × Vec t))) (reg : IncRegression h t),
      chunks.foldl (fun r ch => incPartialFit solve r ch true) reg
        = ⟨statsAdd reg.stats (chunkStats chunks.flatten),
            reg.coef, reg.n_inversions⟩
  | [], reg => by
    simp [chunkStats, statsAdd_zero_right]
  | ch :: chs, reg => by
    rw [List.foldl_cons, incPartialFit_true,
      foldl_incPartialFit_true solve chs, List.flatten_cons,
      chunkStats_append]
    simp [statsAdd_assoc]

theorem elmPartialFit_ok {d h t : ℕ} (solve : Stats h t → Mat h t)
    (st : ELMRegressorState d h t) (f : Vec d → Vec h)
    (h1 : st.regHasPartialFit = true) (h2 : st.i2nValid = true)
    (h3 : st.regIsRegressor = true)
    (h4 : chunkSizeInvalid st.chunk_size = false)
    (hf : st.i2n = some f) (rows : List (Row d t)) (postpone : Bool) :
    elmPartialFit solve st rows postpone
      = .ok { st with
          reg := incPartialFit solve st.reg (rows.map (mapRow f)) postpone } := by
  simp only [elmPartialFit, validateHyper, h1, h2, h3, h4, hf]
  rfl

theorem elm_foldlM_ok {d h t : ℕ} (solve : Stats h t → Mat h t)
    (f : Vec d → Vec h) :
    ∀ (chunks : List (List (Row d t))) (st : ELMRegressorState d h t),
      st.regHasPartialFit = true → st.i2nValid = true →
      st.regIsRegressor = true → chunkSizeInvalid st.chunk_size = false →
      st.i2n = some f →
      chunks.foldlM (fun s ch => elmPartialFit solve s ch true) st
        = .ok { st with reg :=
            (chunks.foldl
              (fun r ch => incPartialFit solve r (ch.map (mapRow f)) true)
              st.reg) }
  | [], st, _, _, _, _, _ => rfl
  | ch :: chs, st, h1, h2, h3, h4, hf => by
    rw [List.foldlM_cons, elmPartialFit_ok solve st f h1 h2 h3 h4 hf, ok_bind,
      elm_foldlM_ok solve f chs
        { st with reg := incPartialFit solve st.reg (ch.map (mapRow f)) true }
        h1 h2 h3 h4 hf,
      List.foldl_cons]

theorem foldl_incPartialFit_map {d h t : ℕ} (solve : Stats h t → Mat h t)
    (f : Vec d → Vec h) :
    ∀ (chunks : List (List (Row d t))) (reg : IncRegression h t),
      chunks.foldl (fun r ch => incPartialFit solve r (ch.map (mapRow f)) true) reg
        = ⟨statsAdd reg.stats (chunkStats (chunks.flatten.map (mapRow f))),
            reg.coef, reg.n_inversions⟩
  | [], reg => by
    simp [chunkStats, statsAdd_zero_right]
  | ch :: chs, reg => by
    rw [List.foldl_cons, incPartialFit_true,
      foldl_incPartialFit_map solve f chs, List.flatten_cons, List.map_append,
      chunkStats_append]
    simp [statsAdd_assoc]

theorem validateHyper_ok {d h t : ℕ} (st : ELMRegressorState d h t)
    (h2 : st.i2nValid = true) (h3 : st.regIsRegressor = true)
    (h4 : chunkSizeInvalid st.chunk_size = false) :
    validateHyper st = .ok () := by
  simp [validateHyper, h2, h3, h4]

/-- The heart of the chunked/single-shot equivalence: processing the chunk
slices in order — all but the last postponing the inverse, the last not —
produces exactly the regressor of a single-shot fit on all rows. -/
theorem chunked_reg_eq_incFit {d h t : ℕ} (solve : Stats h t → Mat h t)
    (f : Vec d → Vec h) (c : ℕ) (hc : 0 < c) (rows : List (Row d t)) :
    incPartialFit solve
      ((chunkSlices c rows).dropLast.foldl
        (fun r ch => incPartialFit solve r (ch.map (mapRow f)) true) freshReg)
      (((chunkSlices c rows).getLastD []).map (mapRow f)) false
      = incFit solve (rows.map (mapRow f)) := by
  have hjoin : (chunkSlices c rows).dropLast.flatten
      ++ (chunkSlices c rows).getLastD [] = rows := by
    rw [flatten_dropLast_getLastD _ _ (chunkSlices_ne_nil c rows),
      chunkSlices_flatten c hc]
  simp only [foldl_incPartialFit_map, incPartialFit_false, incFit, freshReg]
  rw [statsAdd_zero_left, statsAdd_zero_left, ← chunkStats_append,
    ← List.map_append, hjoin]

/-- Running `ELMRegressor.fit` with a valid chunk size strictly between `0`
and the sample count produces exactly the state of a single-shot fit. -/
theorem elmFit_chunked_eq {d h t : ℕ} (solve : Stats h t → Mat h t)
    (st : ELMRegressorState d h t) (c : ℕ) (rows : List (Row d t))
    (h1 : st.regHasPartialFit = true) (h2 : st.i2nValid = true)
    (h3 : st.regIsRegressor = true) (hc0 : 0 < c) (hcn : c < rows.length) :
    elmFit solve { st with chunk_size := some (c : ℤ) } rows
      = .ok { st with
          chunk_size := some (c : ℤ)
          i2n := some st.i2nFresh
          reg := incFit solve (rows.map (mapRow st.i2nFresh)) } := by
  have hcsi : chunkSizeInvalid (some (c : ℤ)) = false := by
    simp [chunkSizeInvalid]
  have hss : singleShotCond (some (c : ℤ)) rows.length = false := by
    simp only [singleShotCond, decide_eq_false_iff_not, not_le]
    exact_mod_cast hcn
  have hlt : (c : ℤ) < (rows.length : ℤ) := by exact_mod_cast hcn
  have hne0 : ¬((c : ℤ) = 0) := by exact_mod_cast hc0.ne'
  simp only [elmFit]
  rw [validateHyper_ok { st with chunk_size := some (c : ℤ) } h2 h3 hcsi,
    ok_bind]
  simp only [hss, Bool.false_eq_true, if_false, hlt, if_true, hne0,
    Int.toNat_ofNat]
  rw [elm_foldlM_ok solve st.i2nFresh (chunkSlices c rows).dropLast
    { st with
      chunk_size := some (c : ℤ)
      i2n := some st.i2nFresh
      reg := freshReg } h1 h2 h3 hcsi rfl, ok_bind]
  dsimp only
  rw [elmPartialFit_ok solve
    { st with
      chunk_size := some (c : ℤ)
      i2n := some st.i2nFresh
      reg := ((chunkSlices c rows).dropLast.foldl
        (fun r ch => incPartialFit solve r (ch.map (mapRow st.i2nFresh)) true)
        freshReg) }
    st.i2nFresh h1 h2 h3 hcsi rfl]
  dsimp only
  rw [chunked_reg_eq_incFit solve st.i2nFresh c hc0 rows]

/-- `ELMRegressor.fit` in the single-shot branch. -/
theorem elmFit_single_shot {d h t : ℕ} (solve : Stats h t → Mat h t)
    (st : ELMRegressorState d h t) (rows : List (Row d t))
    (h2 : st.i2nValid = true) (h3 : st.regIsRegressor = true)
    (hcsi : chunkSizeInvalid st.chunk_size = false)
    (hss : singleShotCond st.chunk_size rows.length = true) :
    elmFit solve st rows
      = .ok { st with
          i2n := some st.i2nFresh
          reg := incFit solve (rows.map (mapRow st.i2nFresh)) } := by
  simp only [elmFit]
  rw [validateHyper_ok st h2 h3 hcsi, ok_bind]
  rw [hss]
  simp

/-- `ELMRegressor.partial_fit` on a state whose transformer is unfitted:
the `NotFittedError` is caught and the transformer lazily fitted. -/
theorem elmPartialFit_lazy {d h t : ℕ} (solve : Stats h t → Mat h t)
    (st : ELMRegressorState d h t)
    (h1 : st.regHasPartialFit = true) (h2 : st.i2nValid = true)
    (h3 : st.regIsRegressor = true)
    (hcsi : chunkSizeInvalid st.chunk_size = false)
    (hnone : st.i2n = none) (rows : List (Row d t)) (postpone : Bool) :
    elmPartialFit solve st rows postpone
      = .ok { st with
          i2n := some st.i2nFresh
          reg := incPartialFit solve st.reg (rows.map (mapRow st.i2nFresh)) postpone } := by
  simp only [elmPartialFit, validateHyper, h1, h2, h3, hcsi, hnone]
  rfl

theorem fbValidateHyper_ok {d h r t : ℕ} (st : FeedbackESNState d h r t)
    (h2 : st.i2nValid = true) (h2b : st.n2nValid = true)
    (h3 : st.regIsRegressor = true)
    (hcsi : chunkSizeInvalid st.chunk_size = false) :
    fbValidateHyper st = .ok () := by
  simp [fbValidateHyper, h2, h2b, h3, hcsi]

/-- `FeedbackESNRegressor.partial_fit` on a fitted state: the regressor is
trained on the teacher-forced reservoir states paired with the scaled,
shifted and inverse-activated targets. -/
theorem fbPartialFit_ok {d h r t : ℕ} (solve : Stats r t → Mat r t)
    (st : FeedbackESNState d h r t) (f : Vec d → Vec h)
    (h1 : st.regHasPartialFit = true) (h2 : st.i2nValid = true)
    (h2b : st.n2nValid = true) (h3 : st.regIsRegressor = true)
    (hcsi : chunkSizeInvalid st.chunk_size = false)
    (hf : st.i2n = some f) (hn2n : st.n2nFitted = true)
    (rows : List (Row d t)) (postpone : Bool) :
    fbPartialFit solve st rows postpone
      = .ok (if postpone
          then { st with reg := (incPartialFit solve st.reg
            ((st.n2nTeacher ((rows.map Prod.fst).map f) (rows.map Prod.snd)).zip
              ((rows.map Prod.snd).map (scaledTarget st))) postpone) }
          else { st with
            reg := (incPartialFit solve st.reg
              ((st.n2nTeacher ((rows.map Prod.fst).map f)
                  (rows.map Prod.snd)).zip
                ((rows.map Prod.snd).map (scaledTarget st))) postpone)
            outputWeights := (incPartialFit solve st.reg
              ((st.n2nTeacher ((rows.map Prod.fst).map f)
                  (rows.map Prod.snd)).zip
                ((rows.map Prod.snd).map (scaledTarget st))) postpone).coef }) := by
  cases postpone <;>
    simp [fbPartialFit, fbValidateHyper, scaledTarget, ok_bind, h1, h2, h2b,
      h3, hcsi, hf, hn2n]

/-- `FeedbackESNRegressor.partial_fit` on a completely unfitted state: both
`NotFittedError`s are caught, both transformers are lazily fitted, and the
call still returns the trained model. -/
theorem fbPartialFit_lazy {d h r t : ℕ} (solve : Stats r t → Mat r t)
    (st : FeedbackESNState d h r t)
    (h1 : st.regHasPartialFit = true) (h2 : st.i2nValid = true)
    (h2b : st.n2nValid = true) (h3 : st.regIsRegressor = true)
    (hcsi : chunkSizeInvalid st.chunk_size = false)
    (hnone : st.i2n = none) (hn2n : st.n2nFitted = false)
    (rows : List (Row d t)) (postpone : Bool) :
    fbPartialFit solve st rows postpone
      = .ok (if postpone
          then { st with
            i2n := some st.i2nFresh
            n2nFitted := true
            reg := (incPartialFit solve st.reg
              ((st.n2nTeacher ((rows.map Prod.fst).map st.i2nFresh)
                  (rows.map Prod.snd)).zip
                ((rows.map Prod.snd).map (scaledTarget st))) postpone) }
          else { st with
            i2n := some st.i2nFresh
            n2nFitted := true
            reg := (incPartialFit solve st.reg
              ((st.n2nTeacher ((rows.map Prod.fst).map st.i2nFresh)
                  (rows.map Prod.snd)).zip
                ((rows.map Prod.snd).map (scaledTarget st))) postpone)
            outputWeights := (incPartialFit solve st.reg
              ((st.n2nTeacher ((rows.map Prod.fst).map st.i2nFresh)
                  (rows.map Prod.snd)).zip
                ((rows.map Prod.snd).map (scaledTarget st))) postpone).coef }) := by
  cases postpone <;>
    simp [fbPartialFit, fbValidateHyper, scaledTarget, ok_bind, h1, h2, h2b,
      h3, hcsi, hnone, hn2n]

/-- `FeedbackESNRegressor.fit` in the single-shot branch. -/
theorem fbFit_single_shot {d h r t : ℕ} (solve : Stats r t → Mat r t)
    (st : FeedbackESNState d h r t) (rows : List (Row d t))
    (h2 : st.i2nValid = true) (h2b : st.n2nValid = true)
    (h3 : st.regIsRegressor = true)
    (hcsi : chunkSizeInvalid st.chunk_size = false)
    (hss : fbSingleShotCond st.chunk_size rows.length = true) :
    fbFit solve st rows
      = .ok { st with
          i2n := some st.i2nFresh
          n2nFitted := true
          reg := (incFit solve
            ((st.n2nTeacher ((rows.map Prod.fst).map st.i2nFresh)
                (rows.map Prod.snd)).zip
              ((rows.map Prod.snd).map (scaledTarget st))))
          outputWeights := (incFit solve
            ((st.n2nTeacher ((rows.map Prod.fst).map st.i2nFresh)
                (rows.map Prod.snd)).zip
              ((rows.map Prod.snd).map (scaledTarget st)))).coef } := by
  simp only [fbFit]
  rw [fbValidateHyper_ok st h2 h2b h3 hcsi, ok_bind]
  rw [hss]
  simp

/-! ## Label-binarizer lemmas -/

theorem argmaxPair_mem :
    ∀ (l : List (ℤ × ℚ)) (p : ℤ × ℚ), argmaxPair l = some p → p ∈ l
  | [], p, h => by simp [argmaxPair] at h
  | q :: l, p, h => by
    simp only [argmaxPair] at h
    cases hrec : argmaxPair l with
    | none =>
      rw [hrec] at h
      exact List.mem_cons.mpr (Or.inl (Option.some.inj h).symm)
    | some r =>
      rw [hrec] at h
      dsimp only at h
      by_cases hc : r.2 > q.2
      · rw [if_pos hc] at h
        exact List.mem_cons.mpr
          (Or.inr ((Option.some.inj h) ▸ argmaxPair_mem l r hrec))
      · rw [if_neg hc] at h
        exact List.mem_cons.mpr (Or.inl (Option.some.inj h).symm)

theorem argmaxPair_cons_isSome (q : ℤ × ℚ) (l : List (ℤ × ℚ)) :
    ∃ p, argmaxPair (q :: l) = some p := by
  simp only [argmaxPair]
  cases argmaxPair l with
  | none => exact ⟨q, rfl⟩
  | some r =>
    by_cases hc : r.2 > q.2
    · exact ⟨r, if_pos hc⟩
    · exact ⟨q, if_neg hc⟩

theorem argmaxPair_oneHot :
    ∀ (cs : List ℤ) (lab : ℤ), lab ∈ cs → cs.Nodup →
      argmaxPair (cs.map fun c => (c, if c = lab then (1 : ℚ) else 0))
        = some (lab, 1)
  | [], lab, hmem, _ => absurd hmem (List.not_mem_nil lab)
  | a :: cs, lab, hmem, hnd => by
    by_cases ha : a = lab
    · subst ha
      have hnotin : a ∉ cs := (List.nodup_cons.mp hnd).1
      have hzero : ∀ p ∈ cs.map fun c => (c, if c = a then (1 : ℚ) else 0),
          p.2 ≤ 0 := by
        intro p hp
        obtain ⟨c, hc, rfl⟩ := List.mem_map.mp hp
        have : c ≠ a := fun hca => hnotin (hca ▸ hc)
        simp [this]
      have hhead : ((a, if a = a then (1 : ℚ) else 0) : ℤ × ℚ) = (a, 1) := by
        simp
      rw [List.map_cons, hhead]
      simp only [argmaxPair]
      cases hrec : argmaxPair (cs.map fun c => (c, if c = a then (1:ℚ) else 0)) with
      | none => rfl
      | some r =>
        have hr : r.2 ≤ 0 := hzero r (argmaxPair_mem _ r hrec)
        dsimp only
        rw [if_neg (by linarith : ¬ r.2 > (1 : ℚ))]
    · have hmem' : lab ∈ cs := by
        rcases List.mem_cons.mp hmem with h | h
        · exact absurd h.symm ha
        · exact h
      have hnd' : cs.Nodup := (List.nodup_cons.mp hnd).2
      simp only [List.map_cons, if_neg ha, argmaxPair,
        argmaxPair_oneHot cs lab hmem' hnd']
      rw [if_pos (by norm_num)]

theorem zip_self_map {α β : Type} (g : α → β) :
    ∀ (l : List α), l.zip (l.map g) = l.map fun a => (a, g a)
  | [] => rfl
  | a :: l => by
    simp only [List.map_cons, List.zip_cons_cons, zip_self_map g l]

theorem lbInverseRow_oneHot (cs : List ℤ) (lab : ℤ) (hmem : lab ∈ cs)
    (hnd : cs.Nodup) (thr : ℚ) :
    lbInverseRow cs thr (oneHot cs lab) = lab := by
  unfold lbInverseRow oneHot
  rw [zip_self_map, argmaxPair_oneHot cs lab hmem hnd]
  rfl

theorem lbInverseRow_mem (cs : List ℤ) (thr : ℚ) (s : List ℚ)
    (hcs : cs ≠ []) (hs : s ≠ []) : lbInverseRow cs thr s ∈ cs := by
  unfold lbInverseRow
  rcases cs with _ | ⟨c0, cs⟩
  · exact absurd rfl hcs
  rcases s with _ | ⟨s0, s⟩
  · exact absurd rfl hs
  rw [List.zip_cons_cons]
  obtain ⟨p, hp⟩ := argmaxPair_cons_isSome (c0, s0) ((cs).zip s)
  rw [hp]
  have := argmaxPair_mem _ p hp
  rcases List.mem_cons.mp this with h | h
  · rw [h]
    exact List.mem_cons_self c0 cs
  · exact List.mem_cons.mpr (Or.inr (List.of_mem_zip h).1)

theorem ofFn_oneHotV (cs : List ℤ) (lab : ℤ) :
    List.ofFn (oneHotV cs lab) = oneHot cs lab := by
  apply List.ext_get
  · simp [oneHot]
  · intro i h1 h2
    simp [oneHotV, oneHot]

theorem lbInverseRowV_oneHotV (cs : List ℤ) (lab : ℤ) (hmem : lab ∈ cs)
    (hnd : cs.Nodup) (thr : ℚ) :
    lbInverseRowV cs thr (oneHotV cs lab) = lab := by
  unfold lbInverseRowV
  rw [ofFn_oneHotV]
  exact lbInverseRow_oneHot cs lab hmem hnd thr

/-! ## Sequence-to-label lemmas -/

theorem seqToLabel_fold_true {d h t : ℕ} (solve : Stats h t → Mat h t)
    (emb : List (Vec d) → List (Vec h)) :
    ∀ (data : List (LabelledSeq d t)) (reg : IncRegression h t),
      ((data.foldl (fun r sq => esnClfPartialFit solve emb r sq.1
          (List.replicate sq.1.length sq.2) true) reg).coef = reg.coef)
      ∧ ((data.foldl (fun r sq => esnClfPartialFit solve emb r sq.1
          (List.replicate sq.1.length sq.2) true) reg).n_inversions
          = reg.n_inversions)
  | [], reg => ⟨rfl, rfl⟩
  | sq :: data, reg => by
    rw [List.foldl_cons]
    exact seqToLabel_fold_true solve emb data _

/-! ## Error-path lemmas -/

theorem error_bind {ε α β : Type} (e : ε) (k : α → Except ε β) :
    (Except.error e : Except ε α) >>= k = .error e := rfl

theorem validateHyper_neg {d h t : ℕ} (st : ELMRegressorState d h t)
    (h2 : st.i2nValid = true) (hc : chunkSizeInvalid st.chunk_size = true) :
    validateHyper st = .error .valueError := by
  simp [validateHyper, h2, hc]

theorem elmFit_negative_chunk {d h t : ℕ} (solve : Stats h t → Mat h t)
    (st : ELMRegressorState d h t) (rows : List (Row d t)) (c : ℤ)
    (h2 : st.i2nValid = true) (hc : c < 0) :
    elmFit solve { st with chunk_size := some c } rows
      = .error .valueError := by
  simp only [elmFit]
  rw [validateHyper_neg { st with chunk_size := some c } h2
    (by simp [chunkSizeInvalid, hc]), error_bind]

theorem elmPartialFit_negative_chunk {d h t : ℕ} (solve : Stats h t → Mat h t)
    (st : ELMRegressorState d h t) (rows : List (Row d t))
    (postpone : Bool) (c : ℤ)
    (h1 : st.regHasPartialFit = true) (h2 : st.i2nValid = true)
    (hchunk : st.chunk_size = some c) (hc : c < 0) :
    elmPartialFit solve st rows postpone = .error .valueError := by
  have hv : validateHyper st = .error .valueError :=
    validateHyper_neg st h2 (by simp [chunkSizeInvalid, hchunk, hc])
  simp [elmPartialFit, h1, hv, error_bind]

theorem elmFit_zero_chunk {d h t : ℕ} (solve : Stats h t → Mat h t)
    (st : ELMRegressorState d h t) (rows : List (Row d t))
    (h2 : st.i2nValid = true) (h3 : st.regIsRegressor = true)
    (hrows : rows ≠ []) :
    elmFit solve { st with chunk_size := some 0 } rows
      = .error .valueError := by
  have hn : 0 < rows.length := List.length_pos.mpr hrows
  have hss : singleShotCond (some (0 : ℤ)) rows.length = false := by
    simp only [singleShotCond, decide_eq_false_iff_not, not_le]
    exact_mod_cast hn
  have hlt : (0 : ℤ) < (rows.length : ℤ) := by exact_mod_cast hn
  simp only [elmFit]
  rw [validateHyper_ok { st with chunk_size := some 0 } h2 h3
    (by simp [chunkSizeInvalid]), ok_bind]
  simp [hss, hlt]
  rfl

/-! ## Concrete instances and observers used to evaluate the theorems -/

/-- A concrete solver for one-dimensional demonstrations. -/
def demoSolve : Stats 1 1 → Mat 1 1 := fun s => s.xTy

/-- A concrete (input, target) row. -/
def demoRow (q : ℚ) : Row 1 1 := (fun _ => q, fun _ => q)

/-- A concrete freshly constructed `ELMRegressor`. -/
def demoELM : ELMRegressorState 1 1 1 where
  chunk_size := none
  i2nValid := true
  regIsRegressor := true
  regHasPartialFit := true
  i2nFresh := id
  i2n := none
  reg := freshReg

/-- Observe the regressor of a fit result. -/
def fitRegOf {d h t : ℕ} : Except PyErr (ELMRegressorState d h t) →
    Option (IncRegression h t)
  | .ok s => some s.reg
  | .error _ => none

/-- Observe the inversion count of a fit result. -/
def fitInversionsOf {d h t : ℕ} : Except PyErr (ELMRegressorState d h t) →
    Option ℕ
  | .ok s => some s.reg.n_inversions
  | .error _ => none

/-- Observe the inversion count of a regressor-valued result. -/
def okInversionsOf {h t : ℕ} : Except PyErr (IncRegression h t) → Option ℕ
  | .ok r => some r.n_inversions
  | .error _ => none

/-! ## The claims -/

/-- **C1.**  For every input matrix `X` with its targets (the zipped `rows`),
and every valid chunk size `0 < c < n`, `ELMRegressor.fit` with
`chunk_size = c` produces the same output weights (the regressor holding
coefficients and intercept) as `ELMRegressor.fit` with `chunk_size = None` on
the same data: the additively accumulated sufficient statistics after
processing all chunks equal those of seeing all samples at once.  In this
exact rational model, equality is on the nose, hence within any tolerance. -/
theorem claim_C1_chunked_fit_eq_single_shot {d h t : ℕ}
    (solve : Stats h t → Mat h t) (st : ELMRegressorState d h t)
    (c : ℕ) (rows : List (Row d t))
    (h1 : st.regHasPartialFit = true) (h2 : st.i2nValid = true)
    (h3 : st.regIsRegressor = true) (hc0 : 0 < c) (hcn : c < rows.length) :
    ∃ stc stn,
      elmFit solve { st with chunk_size := some (c : ℤ) } rows = .ok stc
      ∧ elmFit solve { st with chunk_size := none } rows = .ok stn
      ∧ stc.reg = stn.reg :=
  ⟨_, _, elmFit_chunked_eq solve st c rows h1 h2 h3 hc0 hcn,
    elmFit_single_shot solve { st with chunk_size := none } rows h2 h3 rfl rfl,
    rfl⟩

/-- Witness for C1: a two-sample data set fitted with chunk size 1 yields the
same regressor as the single-shot fit. -/
theorem claim_C1_witness :
    fitRegOf (elmFit demoSolve { demoELM with chunk_size := some 1 }
        [demoRow 1, demoRow 2])
      = fitRegOf (elmFit demoSolve { demoELM with chunk_size := none }
        [demoRow 1, demoRow 2])
    ∧ fitRegOf (elmFit demoSolve { demoELM with chunk_size := some 1 }
        [demoRow 1, demoRow 2]) ≠ none := by
  obtain ⟨stc, stn, hc, hn, he⟩ :=
    claim_C1_chunked_fit_eq_single_shot demoSolve demoELM 1
      [demoRow 1, demoRow 2] rfl rfl rfl (by decide) (by decide)
  rw [show ((1 : ℕ) : ℤ) = (1 : ℤ) from rfl] at hc
  rw [hc, hn]
  simp [fitRegOf, he]

/-- **C2.**  For every `X` with `n` samples and every chunk size `0 < c < n`,
the chunked branch of `ELMRegressor.fit` partitions the rows of `X` in order
into consecutive chunks starting at `0, c, 2c, ...` (their concatenation is
`X`, each row processed exactly once, every non-final chunk of length `c`);
the loop over all chunks but the last (posting `postpone_inverse=True`) never
materializes output weights and takes no inverse, and the full fit takes the
matrix inverse exactly once, at the final chunk. -/
theorem claim_C2_chunk_partition_single_inverse {d h t : ℕ}
    (solve : Stats h t → Mat h t) (st : ELMRegressorState d h t)
    (c : ℕ) (rows : List (Row d t))
    (h1 : st.regHasPartialFit = true) (h2 : st.i2nValid = true)
    (h3 : st.regIsRegressor = true) (hc0 : 0 < c) (hcn : c < rows.length) :
    (chunkSlices c rows).flatten = rows
    ∧ (∀ s ∈ (chunkSlices c rows).dropLast, s.length = c)
    ∧ (∃ stm,
        (chunkSlices c rows).dropLast.foldlM
          (fun s ch => elmPartialFit solve s ch true)
          { st with
            chunk_size := some (c : ℤ)
            i2n := some st.i2nFresh
            reg := freshReg }
          = .ok stm
        ∧ stm.reg.coef = none ∧ stm.reg.n_inversions = 0)
    ∧ (∃ stf, elmFit solve { st with chunk_size := some (c : ℤ) } rows = .ok stf
        ∧ stf.reg.n_inversions = 1
        ∧ stf.reg.coef = some (solve stf.reg.stats)) := by
  refine ⟨chunkSlices_flatten c hc0 rows,
    chunkSlices_dropLast_length c hc0 rows,
    ⟨_, elm_foldlM_ok solve st.i2nFresh (chunkSlices c rows).dropLast
      { st with
        chunk_size := some (c : ℤ)
        i2n := some st.i2nFresh
        reg := freshReg } h1 h2 h3 (by simp [chunkSizeInvalid]) rfl, ?_, ?_⟩,
    ⟨_, elmFit_chunked_eq solve st c rows h1 h2 h3 hc0 hcn, rfl, rfl⟩⟩
  · rw [foldl_incPartialFit_map]
    rfl
  · rw [foldl_incPartialFit_map]
    rfl

/-- Witness for C2: with chunk size 1 on two samples, the slices reassemble
the data and the fit takes exactly one inverse. -/
theorem claim_C2_witness :
    (chunkSlices 1 [demoRow 1, demoRow 2]).flatten = [demoRow 1, demoRow 2]
    ∧ fitInversionsOf (elmFit demoSolve { demoELM with chunk_size := some 1 }
        [demoRow 1, demoRow 2]) = some 1 := by
  obtain ⟨hflat, _, _, stf, hfit, hinv, _⟩ :=
    claim_C2_chunk_partition_single_inverse demoSolve demoELM 1
      [demoRow 1, demoRow 2] rfl rfl rfl (by decide) (by decide)
  refine ⟨hflat, ?_⟩
  rw [show ((1 : ℕ) : ℤ) = (1 : ℤ) from rfl] at hfit
  rw [hfit]
  simp [fitInversionsOf, hinv]

/-- **C9.**  `SeqToLabelESNClassifier.partial_fit` performs identical updates
for both values of the caller-supplied `postpone_inverse` argument: it always
forwards `postpone_inverse=True` for every sequence, so `partial_fit` alone
never materializes the output weights nor takes an inverse; the inverse is
computed exactly once, by the final `partial_fit` call with
`postpone_inverse=False` issued inside `fit`. -/
theorem claim_C9_seq_to_label_always_postpones {d h t : ℕ}
    (solve : Stats h t → Mat h t) (emb : List (Vec d) → List (Vec h))
    (reg : IncRegression h t) (data : List (LabelledSeq d t))
    (p1 p2 : Bool) :
    seqToLabelPartialFit solve emb reg data p1
      = seqToLabelPartialFit solve emb reg data p2
    ∧ (seqToLabelPartialFit solve emb reg data p1).coef = reg.coef
    ∧ (seqToLabelPartialFit solve emb reg data p1).n_inversions
        = reg.n_inversions
    ∧ (data ≠ [] → ∃ r', seqToLabelFit solve emb reg data = .ok r'
        ∧ r'.n_inversions = reg.n_inversions + 1
        ∧ r'.coef = some (solve r'.stats)) := by
  refine ⟨rfl, (seqToLabel_fold_true solve emb data reg).1,
    (seqToLabel_fold_true solve emb data reg).2, fun hne => ?_⟩
  unfold seqToLabelFit
  rw [List.getLast?_eq_getLast data hne]
  refine ⟨_, rfl, ?_, rfl⟩
  simp only [esnClfPartialFit, incPartialFit_false]
  exact congrArg (· + 1) (seqToLabel_fold_true solve emb data.dropLast reg).2

/-- Witness for C9: on a concrete one-sequence data set the caller's flag is
irrelevant and `fit` takes exactly one inverse. -/
theorem claim_C9_witness :
    seqToLabelPartialFit demoSolve id freshReg [([fun _ => 1], fun _ => 2)] true
      = seqToLabelPartialFit demoSolve id freshReg
          [([fun _ => 1], fun _ => 2)] false
    ∧ (seqToLabelPartialFit demoSolve id freshReg
        [([fun _ => 1], fun _ => 2)] true).coef = none
    ∧ okInversionsOf (seqToLabelFit demoSolve id freshReg
        [([fun _ => 1], fun _ => 2)]) = some 1 := by
  obtain ⟨ha, hb, _, hd⟩ :=
    claim_C9_seq_to_label_always_postpones demoSolve id freshReg
      [([fun _ => 1], fun _ => 2)] true false
  obtain ⟨r', hr, hinv, _⟩ := hd (List.cons_ne_nil _ _)
  refine ⟨ha, hb, ?_⟩
  rw [hr]
  simp [okInversionsOf, hinv, freshReg]

/-- **C10.**  For every fitted `NormalDistribution` with size parameter `s`
and every input matrix `X`, `transform(X)` returns an array of shape `(s,)`,
not of shape `(n_samples,)`: the output depends only on the mean and standard
deviation stored at fit, on `s` and on the random stream — never on the
contents or shape of the `X` passed to `transform`. -/
theorem claim_C10_transform_ignores_input (nd : NormalDistributionState)
    (noise : ℕ → ℚ) (x x2 : List (List ℚ))
    (hsz : nd.size ≠ x.length) :
    ndTransform nd noise x = ndTransform nd noise x2
    ∧ (ndTransform nd noise x).length = nd.size
    ∧ (ndTransform nd noise x).length ≠ x.length := by
  refine ⟨rfl, ?_, ?_⟩
  · simp [ndTransform, normRvs]
  · simp only [ndTransform, normRvs, List.length_map, List.length_range]
    exact hsz

/-- Witness for C10: a transformer of size 2 applied to a three-sample input
returns two variates, whatever the input was. -/
theorem claim_C10_witness :
    ndTransform (ndInit 2) (fun _ => 0) [[1], [2], [3]]
      = ndTransform (ndInit 2) (fun _ => 0) [[7, 8]]
    ∧ (ndTransform (ndInit 2) (fun _ => 0) [[1], [2], [3]]).length = 2
    ∧ (ndTransform (ndInit 2) (fun _ => 0) [[1], [2], [3]]).length ≠ 3 :=
  claim_C10_transform_ignores_input (ndInit 2) (fun _ => 0) [[1], [2], [3]]
    [[7, 8]] (by decide)

/-- `ELMRegressor.partial_fit` succeeds on any validly configured state,
fitted or not. -/
theorem elmPartialFit_total {d h t : ℕ} (solve : Stats h t → Mat h t)
    (st : ELMRegressorState d h t) (rows : List (Row d t)) (postpone : Bool)
    (h1 : st.regHasPartialFit = true) (h2 : st.i2nValid = true)
    (h3 : st.regIsRegressor = true)
    (hcsi : chunkSizeInvalid st.chunk_size = false) :
    ∃ st', elmPartialFit solve st rows postpone = .ok st' := by
  cases hi : st.i2n with
  | none => exact ⟨_, elmPartialFit_lazy solve st h1 h2 h3 hcsi hi rows postpone⟩
  | some f => exact ⟨_, elmPartialFit_ok solve st f h1 h2 h3 hcsi hi rows postpone⟩

/-- A concrete freshly constructed `FeedbackESNRegressor` (teacher scaling 2,
teacher shift 3, identity inverse activation). -/
def demoFB : FeedbackESNState 1 1 1 1 where
  chunk_size := none
  i2nValid := true
  n2nValid := true
  regIsRegressor := true
  regHasPartialFit := true
  teacher_scaling := 2
  teacher_shift := 3
  actInv := id
  i2nFresh := id
  i2n := none
  n2nTeacher := fun s _ => s
  n2nPredict := fun s => s ++ [fun _ => 0]
  n2nFitted := false
  outputWeights := none
  reg := freshReg

/-- The demo feedback regressor after its transformers were fitted. -/
def demoFBFitted : FeedbackESNState 1 1 1 1 :=
  { demoFB with i2n := some id, n2nFitted := true }

/-- A demo `ELMRegressor` whose regressor object lacks `partial_fit`. -/
def demoELMNoPartial : ELMRegressorState 1 1 1 :=
  { demoELM with regHasPartialFit := false }

/-- Observe whether a feedback fit result is a success. -/
def fbOkOf {d h r t : ℕ} : Except PyErr (FeedbackESNState d h r t) → Bool
  | .ok _ => true
  | .error _ => false

/-- **C3 (counterexample to the claim as stated).**  `partial_fit` with
`chunk_size = 0` raises no error at all: `_validate_hyperparameters` only
rejects `chunk_size < 0`, so zero passes validation and the partial fit
completes. -/
theorem claim_C3_counterexample :
    fitRegOf (elmPartialFit demoSolve { demoELM with chunk_size := some 0 }
        [demoRow 1] false) ≠ none := by
  rw [elmPartialFit_lazy demoSolve { demoELM with chunk_size := some 0 }
    rfl rfl rfl rfl rfl [demoRow 1] false]
  simp [fitRegOf]

/-- **C3 (amended).**  `ELMRegressor.fit` with `chunk_size` at least the
sample count (or `None`) performs a single-shot fit; a negative `chunk_size`
raises `ValueError` from hyperparameter validation in both `fit` and
`partial_fit`; a zero `chunk_size` passes validation — `partial_fit`
completes normally, while `fit` on a nonempty `X` raises `ValueError` only
when the chunk range is built; `FeedbackESNRegressor.fit` falls back to
single-shot for `chunk_size` strictly greater than the sample count. -/
theorem claim_C3_chunk_size_edge_cases {d h t dF hF rF tF : ℕ}
    (solve : Stats h t → Mat h t) (st : ELMRegressorState d h t)
    (rows : List (Row d t)) (c cneg : ℤ) (postpone : Bool)
    (fbsolve : Stats rF tF → Mat rF tF) (fbst : FeedbackESNState dF hF rF tF)
    (fbrows : List (Row dF tF)) (fbc : ℤ)
    (h1 : st.regHasPartialFit = true) (h2 : st.i2nValid = true)
    (h3 : st.regIsRegressor = true)
    (g2 : fbst.i2nValid = true) (g2b : fbst.n2nValid = true)
    (g3 : fbst.regIsRegressor = true) :
    ((rows.length : ℤ) ≤ c →
      elmFit solve { st with chunk_size := some c } rows
        = .ok { st with
            chunk_size := some c
            i2n := some st.i2nFresh
            reg := incFit solve (rows.map (mapRow st.i2nFresh)) })
    ∧ (cneg < 0 →
        elmFit solve { st with chunk_size := some cneg } rows
          = .error .valueError
        ∧ elmPartialFit solve { st with chunk_size := some cneg } rows postpone
          = .error .valueError)
    ∧ (∃ st', elmPartialFit solve { st with chunk_size := some 0 } rows
        postpone = .ok st')
    ∧ (rows ≠ [] → elmFit solve { st with chunk_size := some 0 } rows
        = .error .valueError)
    ∧ ((fbrows.length : ℤ) < fbc →
        ∃ stf, fbFit fbsolve { fbst with chunk_size := some fbc } fbrows
          = .ok stf
        ∧ stf.reg = incFit fbsolve
            ((fbst.n2nTeacher ((fbrows.map Prod.fst).map fbst.i2nFresh)
                (fbrows.map Prod.snd)).zip
              ((fbrows.map Prod.snd).map (scaledTarget fbst)))) := by
  refine ⟨fun hge => ?_, fun hneg => ⟨?_, ?_⟩, ?_, fun hne => ?_, fun hgt => ?_⟩
  · exact elmFit_single_shot solve { st with chunk_size := some c } rows h2 h3
      (by simp only [chunkSizeInvalid, decide_eq_false_iff_not, not_lt]; omega)
      (by simp only [singleShotCond, decide_eq_true_eq]; exact hge)
  · exact elmFit_negative_chunk solve st rows cneg h2 hneg
  · exact elmPartialFit_negative_chunk solve
      { st with chunk_size := some cneg } rows postpone cneg h1 h2 rfl hneg
  · exact elmPartialFit_total solve { st with chunk_size := some 0 } rows
      postpone h1 h2 h3 rfl
  · exact elmFit_zero_chunk solve st rows h2 h3 hne
  · refine ⟨_, fbFit_single_shot fbsolve { fbst with chunk_size := some fbc }
      fbrows g2 g2b g3
      (by simp only [chunkSizeInvalid, decide_eq_false_iff_not, not_lt]; omega)
      (by simp only [fbSingleShotCond, decide_eq_true_eq]; exact hgt), rfl⟩

/-- Witness for the amended C3: chunk size 5 on two samples single-shots,
zero chunk size leaves `partial_fit` successful but makes `fit` fail, and the
feedback regressor single-shots for chunk size 5. -/
theorem claim_C3_witness :
    elmFit demoSolve { demoELM with chunk_size := some 5 }
        [demoRow 1, demoRow 2]
      = .ok { demoELM with
          chunk_size := some 5
          i2n := some demoELM.i2nFresh
          reg := incFit demoSolve
            ([demoRow 1, demoRow 2].map (mapRow demoELM.i2nFresh)) }
    ∧ elmFit demoSolve { demoELM with chunk_size := some (-1) }
        [demoRow 1, demoRow 2] = .error .valueError
    ∧ fitRegOf (elmPartialFit demoSolve { demoELM with chunk_size := some 0 }
        [demoRow 1, demoRow 2] true) ≠ none
    ∧ elmFit demoSolve { demoELM with chunk_size := some 0 }
        [demoRow 1, demoRow 2] = .error .valueError
    ∧ fbOkOf (fbFit demoSolve { demoFB with chunk_size := some 5 }
        [demoRow 1, demoRow 2]) = true := by
  obtain ⟨ha, hbneg, hc, hd, he⟩ :=
    claim_C3_chunk_size_edge_cases demoSolve demoELM [demoRow 1, demoRow 2]
      5 (-1) true demoSolve demoFB [demoRow 1, demoRow 2] 5
      rfl rfl rfl rfl rfl rfl
  obtain ⟨stf, hfb, _⟩ := he (by decide)
  obtain ⟨st', hps⟩ := hc
  refine ⟨ha (by decide), (hbneg (by decide)).1, ?_, hd (by decide), ?_⟩
  · rw [hps]
    simp [fitRegOf]
  · rw [hfb]
    simp [fbOkOf]

/-- **C4.**  When `partial_fit` (of `ELMRegressor` or `FeedbackESNRegressor`)
is called while the input-to-node transformer is not yet fitted, the
`NotFittedError` raised by `transform` is caught locally and the transformer
is lazily fitted via `fit_transform` on that same chunk; the partial fit
completes and returns the trained model, and the `NotFittedError` never
propagates to the caller. -/
theorem claim_C4_lazy_fit_on_not_fitted {d h t dF hF rF tF : ℕ}
    (solve : Stats h t → Mat h t) (st : ELMRegressorState d h t)
    (rows : List (Row d t)) (postpone : Bool)
    (fbsolve : Stats rF tF → Mat rF tF) (fbst : FeedbackESNState dF hF rF tF)
    (fbrows : List (Row dF tF)) (fbpostpone : Bool)
    (h1 : st.regHasPartialFit = true) (h2 : st.i2nValid = true)
    (h3 : st.regIsRegressor = true)
    (hcsi : chunkSizeInvalid st.chunk_size = false)
    (hnone : st.i2n = none)
    (g1 : fbst.regHasPartialFit = true) (g2 : fbst.i2nValid = true)
    (g2b : fbst.n2nValid = true) (g3 : fbst.regIsRegressor = true)
    (gcsi : chunkSizeInvalid fbst.chunk_size = false)
    (gnone : fbst.i2n = none) (gn2n : fbst.n2nFitted = false) :
    elmPartialFit solve st rows postpone
      = .ok { st with
          i2n := some st.i2nFresh
          reg := incPartialFit solve st.reg (rows.map (mapRow st.i2nFresh))
            postpone }
    ∧ ∃ st2, fbPartialFit fbsolve fbst fbrows fbpostpone = .ok st2
        ∧ st2.i2n = some fbst.i2nFresh ∧ st2.n2nFitted = true
        ∧ st2.reg = incPartialFit fbsolve fbst.reg
            ((fbst.n2nTeacher ((fbrows.map Prod.fst).map fbst.i2nFresh)
                (fbrows.map Prod.snd)).zip
              ((fbrows.map Prod.snd).map (scaledTarget fbst))) fbpostpone := by
  refine ⟨elmPartialFit_lazy solve st h1 h2 h3 hcsi hnone rows postpone,
    ⟨_, fbPartialFit_lazy fbsolve fbst g1 g2 g2b g3 gcsi gnone gn2n fbrows
      fbpostpone, ?_, ?_, ?_⟩⟩
  · cases fbpostpone <;> rfl
  · cases fbpostpone <;> rfl
  · cases fbpostpone <;> rfl

/-- Witness for C4: both unfitted demo models accept a partial fit without
propagating any not-fitted error. -/
theorem claim_C4_witness :
    elmPartialFit demoSolve demoELM [demoRow 1] true
      = .ok { demoELM with
          i2n := some demoELM.i2nFresh
          reg := incPartialFit demoSolve demoELM.reg
            ([demoRow 1].map (mapRow demoELM.i2nFresh)) true }
    ∧ fbOkOf (fbPartialFit demoSolve demoFB [demoRow 1] true) = true := by
  obtain ⟨ha, st2, hfb, _⟩ :=
    claim_C4_lazy_fit_on_not_fitted demoSolve demoELM [demoRow 1] true
      demoSolve demoFB [demoRow 1] true
      rfl rfl rfl rfl rfl rfl rfl rfl rfl rfl rfl rfl
  refine ⟨ha, ?_⟩
  rw [hfb]
  simp [fbOkOf]

/-- **C5 (counterexample to the claim as stated).**  `predict` on a
never-fitted `ELMClassifier` raises `AttributeError`, not `NotFittedError`:
its `_encoder` is still `None`, and Python resolves
`self._encoder.inverse_transform` before evaluating `super().predict(X)`. -/
theorem claim_C5_counterexample :
    elmClassifierPredict none demoELM [] = .error .attributeError
    ∧ PyErr.attributeError ≠ PyErr.notFittedError :=
  ⟨rfl, by decide⟩

/-- **C5 (amended).**  `predict` on a never-fitted `ELMRegressor` raises
`NotFittedError` and returns no prediction; on a never-fitted `ELMClassifier`
(whose label binarizer is still unset) it raises an `AttributeError`, again
returning no prediction; and `partial_fit` with a regressor lacking
`partial_fit` raises the configuration error (`BaseException`) eagerly,
before any statistics are updated. -/
theorem claim_C5_predict_before_fit {d h t dP hP tP : ℕ}
    (st : ELMRegressorState d h t) (x : List (Vec d))
    (solveP : Stats hP tP → Mat hP tP) (stP : ELMRegressorState dP hP tP)
    (rowsP : List (Row dP tP)) (postpone : Bool)
    (hnone : st.i2n = none) (hpf : stP.regHasPartialFit = false) :
    elmPredict st x = .error .notFittedError
    ∧ elmClassifierPredict none st x = .error .attributeError
    ∧ elmPartialFit solveP stP rowsP postpone = .error .baseException := by
  refine ⟨by simp [elmPredict, hnone], rfl, ?_⟩
  simp [elmPartialFit, hpf]
  rfl

/-- Witness for the amended C5 on the demo estimators. -/
theorem claim_C5_witness :
    elmPredict demoELM [] = .error .notFittedError
    ∧ elmClassifierPredict none demoELM [] = .error .attributeError
    ∧ elmPartialFit demoSolve demoELMNoPartial [demoRow 1] false
      = .error .baseException :=
  claim_C5_predict_before_fit demoELM [] demoSolve demoELMNoPartial
    [demoRow 1] false rfl rfl

/-- Observe the list of predictions of a predict result. -/
def predListOf {t : ℕ} : Except PyErr (List (Vec t)) → Option (List (Vec t))
  | .ok l => some l
  | .error _ => none

/-- **C7.**  During `FeedbackESNRegressor.fit` and `partial_fit` the readout
regressor is trained on the target signal scaled and shifted as
`y * teacher_scaling + teacher_shift` with the inverse output activation
applied — not on raw `y`; during fit the target is folded into the recurrence
through the node-to-node transform (`n2nTeacher ... y`); and `predict` applies
the inverse mapping `(prediction - teacher_shift) / teacher_scaling` to the
`_y_pred` signal. -/
theorem claim_C7_teacher_scaling_roundtrip {d h r t : ℕ}
    (solve : Stats r t → Mat r t) (st : FeedbackESNState d h r t)
    (f : Vec d → Vec h) (rows : List (Row d t)) (x : List (Vec d))
    (postpone : Bool) (v : Vec t) (j : Fin t)
    (g1 : st.regHasPartialFit = true) (g2 : st.i2nValid = true)
    (g2b : st.n2nValid = true) (g3 : st.regIsRegressor = true)
    (gcsi : chunkSizeInvalid st.chunk_size = false)
    (hf : st.i2n = some f) (hn2n : st.n2nFitted = true) :
    scaledTarget st v j
      = st.actInv (v j * st.teacher_scaling + st.teacher_shift)
    ∧ unscaledOutput st v j = (v j - st.teacher_shift) / st.teacher_scaling
    ∧ (∃ st', fbPartialFit solve st rows postpone = .ok st'
        ∧ st'.reg = incPartialFit solve st.reg
            ((st.n2nTeacher ((rows.map Prod.fst).map f)
                (rows.map Prod.snd)).zip
              ((rows.map Prod.snd).map (scaledTarget st))) postpone)
    ∧ (fbSingleShotCond st.chunk_size rows.length = true →
        ∃ stf, fbFit solve st rows = .ok stf
          ∧ stf.reg = incFit solve
              ((st.n2nTeacher ((rows.map Prod.fst).map st.i2nFresh)
                  (rows.map Prod.snd)).zip
                ((rows.map Prod.snd).map (scaledTarget st))))
    ∧ fbPredict st x
        = .ok ((st.n2nPredict (x.map f)).dropLast.map (unscaledOutput st)) := by
  refine ⟨rfl, rfl, ⟨_, fbPartialFit_ok solve st f g1 g2 g2b g3 gcsi hf hn2n
      rows postpone, ?_⟩, fun hss => ⟨_,
      fbFit_single_shot solve st rows g2 g2b g3 gcsi hss, rfl⟩, ?_⟩
  · cases postpone <;> rfl
  · simp [fbPredict, hf]

/-- Witness for C7 on a fitted demo feedback regressor: the target 4 is
trained as `4 * 2 + 3 = 11`, and a predicted signal value 11 is mapped back
to `(11 - 3) / 2 = 4`. -/
theorem claim_C7_witness :
    scaledTarget demoFBFitted (fun _ => 4) 0 = 11
    ∧ unscaledOutput demoFBFitted (fun _ => 11) 0 = 4
    ∧ fbOkOf (fbPartialFit demoSolve demoFBFitted [demoRow 1] true) = true
    ∧ predListOf (fbPredict demoFBFitted [fun _ => 11])
      = some [fun _ => (4 : ℚ)] := by
  obtain ⟨hs, hu, ⟨st', hpf, _⟩, _, hpred⟩ :=
    claim_C7_teacher_scaling_roundtrip demoSolve demoFBFitted id [demoRow 1]
      [fun _ => 11] true (fun _ => 11) 0 rfl rfl rfl rfl rfl rfl rfl
  refine ⟨?_, by rw [hu]; norm_num [demoFBFitted, demoFB], ?_, ?_⟩
  · rw [show scaledTarget demoFBFitted (fun _ => 4) 0
        = demoFBFitted.actInv
            (4 * demoFBFitted.teacher_scaling + demoFBFitted.teacher_shift)
      from rfl]
    norm_num [demoFBFitted, demoFB]
  · rw [hpf]
    simp [fbOkOf]
  · rw [hpred]
    have h1 : (demoFBFitted.n2nPredict (([fun _ => (11 : ℚ)] :
        List (Vec 1)).map id)).dropLast = [fun _ => (11 : ℚ)] := by
      simp [demoFBFitted, demoFB]
    rw [h1]
    have h2 : unscaledOutput demoFBFitted (fun _ => (11 : ℚ))
        = fun _ => (4 : ℚ) := by
      funext j
      show ((11 : ℚ) - demoFBFitted.teacher_shift)
          / demoFBFitted.teacher_scaling = 4
      norm_num [demoFBFitted, demoFB]
    simp [predListOf, h2]

/-- **C8 (counterexample to the claim as stated).**  The cache path is not
`<data_home>/ptdb_tug.pkz`: scikit-learn's pickle-path convention inserts the
suffix `_py3` before the extension, yielding `<data_home>/ptdb_tug_py3.pkz`. -/
theorem claim_C8_counterexample :
    (fetchPtdbTug "home" true false).path ≠ "home/ptdb_tug.pkz"
    ∧ (fetchPtdbTug "home" true false).path = "home/ptdb_tug_py3.pkz" := by
  constructor <;> decide

/-- **C8 (amended).**  `fetch_ptdb_tug_dataset` persists the preprocessed
dataset at the fixed cache path `_pkl_filepath(data_home, 'ptdb_tug.pkz')`,
i.e. `<data_home>/ptdb_tug_py3.pkz`; for every call where that file exists
and `force_preprocessing` is false, it loads the four arrays from the cache
and never invokes the preprocessor nor walks the `data_origin` directory. -/
theorem claim_C8_cache_fast_path (dataHome : String) (cacheExists force : Bool)
    (hc : cacheExists = true) (hf : force = false) :
    fetchPtdbTug dataHome cacheExists force
      = { path := dataHome ++ "/ptdb_tug_py3.pkz"
          preprocessorInvoked := false
          walkedOrigin := false
          loadedFromCache := true
          dumpedCache := false } := by
  subst hc hf
  have hpath : pklFilepath dataHome "ptdb_tug.pkz"
      = dataHome ++ "/ptdb_tug_py3.pkz" := by
    unfold pklFilepath
    rw [show splitExt "ptdb_tug.pkz" = ("ptdb_tug", ".pkz") from by decide]
    simp only [String.append_assoc]
    congr 1
  simp [fetchPtdbTug, hpath]

/-- Witness for the amended C8 at a concrete data home. -/
theorem claim_C8_witness :
    fetchPtdbTug "home" true false
      = { path := "home/ptdb_tug_py3.pkz"
          preprocessorInvoked := false
          walkedOrigin := false
          loadedFromCache := true
          dumpedCache := false } := by
  rw [claim_C8_cache_fast_path "home" true false rfl rfl]
  decide

/-- The demo class labels for the classifier. -/
def demoY : List ℤ := [3, 5]

/-- A two-dimensional unit vector. -/
def demoE (k : ℕ) : Vec 2 := fun i => if (i : ℕ) = k then 1 else 0

/-- Identity output weights of the demo classifier's regressor. -/
def demoW : Mat 2 (lbFit demoY).classes.length :=
  fun i j => if (i : ℕ) = (j : ℕ) then 1 else 0

/-- The demo classifier's fitted underlying `ELMRegressor`. -/
def demoClf : ELMRegressorState 2 2 (lbFit demoY).classes.length where
  chunk_size := none
  i2nValid := true
  regIsRegressor := true
  regHasPartialFit := true
  i2nFresh := id
  i2n := some id
  reg := ⟨statsZero, some demoW, 1⟩

/-- **C6.**  `ELMClassifier.fit` encodes the class targets with a
`LabelBinarizer` before delegating to the numeric regressor, and
`ELMClassifier.predict` decodes the regressor's numeric output with the
binarizer's `inverse_transform` (threshold 0).  Consequently every decoded
label is one of the classes seen at fit, decoding inverts the encoding, and
when the fitted regressor reproduces the encoding exactly on the training
inputs (perfectly separable data), `fit` followed by `predict` recovers the
original class labels. -/
theorem claim_C6_binarizer_roundtrip {d h : ℕ} (y : List ℤ)
    (s : Vec (lbFit y).classes.length)
    (st : ELMRegressorState d h (lbFit y).classes.length)
    (x : List (Vec d)) (hy : y ≠ []) :
    lbInverseRowV (lbFit y).classes 0 s ∈ (lbFit y).classes
    ∧ (y.map (oneHotV (lbFit y).classes)).map
        (lbInverseRowV (lbFit y).classes 0) = y
    ∧ (elmPredict st x = .ok (y.map (oneHotV (lbFit y).classes)) →
        elmClassifierPredict (some (lbFit y)) st x = .ok y) := by
  have hclasses : (lbFit y).classes ≠ [] := by
    rw [show (lbFit y).classes = y.dedup from rfl, ne_eq, List.dedup_eq_nil]
    exact hy
  have hnd : (lbFit y).classes.Nodup := List.nodup_dedup y
  have hroundrow : ∀ lab ∈ y,
      lbInverseRowV (lbFit y).classes 0 (oneHotV (lbFit y).classes lab)
        = lab :=
    fun lab hl => lbInverseRowV_oneHotV _ lab (List.mem_dedup.mpr hl) hnd 0
  have hb : (y.map (oneHotV (lbFit y).classes)).map
      (lbInverseRowV (lbFit y).classes 0) = y := by
    rw [List.map_map]
    exact (List.map_congr_left fun lab hl => hroundrow lab hl).trans
      (List.map_id y)
  refine ⟨?_, hb, fun hpred => ?_⟩
  · unfold lbInverseRowV
    refine lbInverseRow_mem _ _ _ hclasses ?_
    intro hnil
    have := congrArg List.length hnil
    rw [List.length_ofFn] at this
    exact hclasses (List.eq_nil_of_length_eq_zero this)
  · simp only [elmClassifierPredict, hpred, ok_bind]
    rw [show lbInverse (lbFit y) 0 (y.map (oneHotV (lbFit y).classes))
        = (y.map (oneHotV (lbFit y).classes)).map
            (lbInverseRowV (lbFit y).classes 0) from rfl, hb]

/-- Witness for C6: the classifier over classes `{3, 5}` decodes into those
classes, inverts its own encoding, and — with identity output weights that
reproduce the encoding on the two training inputs — predicts the original
labels. -/
theorem claim_C6_witness :
    lbInverseRowV (lbFit demoY).classes 0
        ((fun _ => 1) : Vec (lbFit demoY).classes.length)
      ∈ (lbFit demoY).classes
    ∧ (demoY.map (oneHotV (lbFit demoY).classes)).map
        (lbInverseRowV (lbFit demoY).classes 0) = demoY
    ∧ elmClassifierPredict (some (lbFit demoY)) demoClf [demoE 0, demoE 1]
      = .ok demoY := by
  obtain ⟨ha, hb, hc⟩ :=
    claim_C6_binarizer_roundtrip demoY
      ((fun _ => 1) : Vec (lbFit demoY).classes.length) demoClf
      [demoE 0, demoE 1] (by decide)
  have hap0 : applyWeights demoW (demoE 0)
      = fun (i : Fin (lbFit demoY).classes.length) =>
          if (i : ℕ) = 0 then (1 : ℚ) else 0 := by
    funext j
    simp only [applyWeights]
    rw [Fin.sum_univ_two]
    fin_cases j <;> norm_num [demoW, demoE]
  have hap1 : applyWeights demoW (demoE 1)
      = fun (i : Fin (lbFit demoY).classes.length) =>
          if (i : ℕ) = 1 then (1 : ℚ) else 0 := by
    funext j
    simp only [applyWeights]
    rw [Fin.sum_univ_two]
    fin_cases j <;> norm_num [demoW, demoE]
  have hoh3 : oneHotV (lbFit demoY).classes 3
      = fun (i : Fin (lbFit demoY).classes.length) =>
          if (i : ℕ) = 0 then (1 : ℚ) else 0 := by decide
  have hoh5 : oneHotV (lbFit demoY).classes 5
      = fun (i : Fin (lbFit demoY).classes.length) =>
          if (i : ℕ) = 1 then (1 : ℚ) else 0 := by decide
  refine ⟨ha, hb, hc ?_⟩
  rw [show elmPredict demoClf [demoE 0, demoE 1]
      = .ok ((([demoE 0, demoE 1]).map id).map (applyWeights demoW)) from rfl]
  congr 1
  rw [show ([demoE 0, demoE 1].map id).map (applyWeights demoW)
      = [applyWeights demoW (demoE 0), applyWeights demoW (demoE 1)] from rfl,
    show demoY.map (oneHotV (lbFit demoY).classes)
      = [oneHotV (lbFit demoY).classes 3, oneHotV (lbFit demoY).classes 5]
      from rfl,
    hap0, hap1, hoh3, hoh5]

end PyRCN
